import Mathlib

/-!
Verification of the Qiner mining core: a shallow embedding of the identity
codec (`converters.rs`), the solution-packet builder (`network.rs`), the
Keccak-based stream expander (`math.rs`) and the scoring kernel
(`miner.rs`), together with proofs and refutations of the specified
properties.

Machine integers are modelled as `Nat` with explicit `% 2 ^ 64` where u64
overflow is possible; byte arrays are `List Nat`; the external hash crates
(`k12::KangarooTwelve`, `keccak::p1600`) enter as explicit function
parameters, mirroring the crate boundary of the source.
-/

namespace Qiner

/-! Constants from `lib/src/types.rs`. -/

/-- Constant `STATE_SIZE_64 = 200 / size_of::<u64>()`. -/
def STATE_SIZE_64 : ℕ := 200 / 8

/-- Total number of neurons. -/
def NUMBER_OF_NEURONS : ℕ := 4194304

/-- Constant `NUMBER_OF_NEURONS * size_of::<NeuronLink>() / size_of::<u64>()`. -/
def NUMBER_OF_NEURONS_64 : ℕ := NUMBER_OF_NEURONS * 4 / 8

/-- Mask `((NUMBER_OF_NEURONS - 1) << 32) | (NUMBER_OF_NEURONS - 1)`. -/
def NEURON_MOD_BITS : ℕ :=
  ((NUMBER_OF_NEURONS - 1) <<< 32) ||| (NUMBER_OF_NEURONS - 1)

/-- Length of the mining data array (in u64 words). -/
def MINING_DATA_LENGTH : ℕ := 1024

/-! # Identity codec (`Qiner/src/converters.rs`)

A KangarooTwelve XOF is modelled as a function `k12 : List ℕ → ℕ → ℕ`
giving the i-th output byte of the hash of a byte string; `squeeze`
reads a prefix of the output, as `finalize_xof_into` does. -/

/-- Squeeze `n` bytes of extendable output for `input`. -/
def squeeze (k12 : List ℕ → ℕ → ℕ) (input : List ℕ) (n : ℕ) : List ℕ :=
  (List.range n).map (k12 input)

/-- Byte value of `'A' as u8`. -/
def letterA : ℕ := 65

/-- The inner digit loop of `get_id_from_public_key_64`:
`id[idx] = fragment % 26 + 'A'; fragment /= 26;`, emitting `n` base-26
digits of `frag` in ascending index order. -/
def limbDigits : ℕ → ℕ → List ℕ
  | 0, _ => []
  | j + 1, frag => (frag % 26 + letterA) :: limbDigits j (frag / 26)

/-- A u64 as its 8 little-endian bytes (the `*const PublicKey` view of a
`PublicKey64`). -/
def u64ToBytesLE (x : ℕ) : List ℕ :=
  (List.range 8).map fun k => x / 256 ^ k % 256

/-- The identity-bytes checksum of `get_id_from_public_key_64`: hash the
32 public-key bytes, combine 3 output bytes little-endian, mask to 18
bits. -/
def identityChecksum (k12 : List ℕ → ℕ → ℕ) (publicKey : List ℕ) : ℕ :=
  let bytes := (publicKey.map u64ToBytesLE).flatten
  (k12 bytes 0 ||| (k12 bytes 1 <<< 8) ||| (k12 bytes 2 <<< 16)) &&& 0x3FFFF

/-- Encoder `get_id_from_public_key_64`: 14 base-26 digits per limb (positions
0..56), then 4 base-26 digits of the 18-bit checksum (positions 56..60). -/
def get_id_from_public_key_64 (k12 : List ℕ → ℕ → ℕ) (publicKey : List ℕ) :
    List ℕ :=
  (publicKey.map (limbDigits 14)).flatten ++
    limbDigits 4 (identityChecksum k12 publicKey)

/-- The inner limb loop of `get_public_key_64_from_id`: for
`j in (0..14).rev()`, reject bytes outside `'A'..='Z'`, otherwise
`public_key[i] = public_key[i] * 26 + (id[i*14+j] - 'A')` (u64, so
reduced `% 2 ^ 64`). -/
def decodeLimb (id : List ℕ) (i : ℕ) : ℕ → ℕ → Option ℕ
  | 0, acc => some acc
  | j + 1, acc =>
    let v := id.getD (i * 14 + j) 0
    if v < 65 ∨ 90 < v then none
    else decodeLimb id i j ((acc * 26 + (v - letterA)) % 2 ^ 64)

/-- Decoder `get_public_key_64_from_id`: decode the four limbs; on the first
invalid byte the out-parameter is re-zeroed and `false` is returned. -/
def get_public_key_64_from_id (id : List ℕ) : Bool × List ℕ :=
  match decodeLimb id 0 14 0, decodeLimb id 1 14 0,
        decodeLimb id 2 14 0, decodeLimb id 3 14 0 with
  | some p0, some p1, some p2, some p3 => (true, [p0, p1, p2, p3])
  | _, _, _, _ => (false, [0, 0, 0, 0])

/-! # Packet builder (`Qiner/src/network.rs`) -/

/-- Header struct `RequestResponseHeader`; `packetType` models the `r#type` field. -/
structure RequestResponseHeader where
  size : List ℕ
  protocol : ℕ
  dejavu : List ℕ
  packetType : ℕ
deriving Repr, DecidableEq

/-- Setter `set_size`: `transmute_copy::<usize, Size>`, i.e. the first three
little-endian bytes of the size. -/
def usizeToSize (s : ℕ) : List ℕ := [s % 256, s / 256 % 256, s / 65536 % 256]

/-- Constructor `RequestResponseHeader::new`: set size and type, set `protocol` to
`get_version()[1]` (an environment input, passed as `versionMinor`), and
zero the dejavu field (`zeroed_dejavu`). -/
def RequestResponseHeader.new (inType inSize versionMinor : ℕ) :
    RequestResponseHeader :=
  { size := usizeToSize inSize
    protocol := versionMinor
    dejavu := [0, 0, 0]
    packetType := inType }

/-- Message struct of the packet. -/
structure Message where
  source_public_key : List ℕ
  destination_public_key : List ℕ
  gamming_nonce : List ℕ
deriving Repr, DecidableEq

/-- Packet struct. The signature is kept as the eight u64 hardware-RNG draws. -/
structure Packet where
  header : RequestResponseHeader
  message : Message
  solution_nonce : List ℕ
  signature : List ℕ
deriving Repr, DecidableEq

/-- Value of `size_of::<Packet>()`: header (3+1+3+1) + message (three 32-byte
keys) + solution nonce (32) + signature (64). -/
def sizeOfPacket : ℕ := (3 + 1 + 3 + 1) + (32 + 32 + 32) + 32 + 64

/-- The nonce-buffer redraw loop of `Packet::new`: draw `nonce_buffer`,
hash the 64-byte buffer (32 zero bytes, then the nonce buffer) into
`gamming_key`, and `if gamming_key[0] == 0 { break; }`.  The successive
hardware-RNG draws are the `draws` list; `none` models exhausting it. -/
def gammaLoop (k12 : List ℕ → ℕ → ℕ) :
    List (List ℕ) → Option (List ℕ × List ℕ)
  | [] => none
  | nonceBuffer :: rest =>
    let gammingKey := squeeze k12 (List.replicate 32 0 ++ nonceBuffer) 32
    if gammingKey.headD 0 = 0 then some (nonceBuffer, gammingKey)
    else gammaLoop k12 rest

/-- Builder `Packet::new`: build the header, run the gamming-nonce loop, derive
`gamma` by re-hashing `gamming_key`, and XOR `in_nonce` with `gamma` to
obtain `solution_nonce`.  `versionMinor` is `get_version()[1]`, `sig` the
eight random signature words, `draws` the successive 32-byte nonce-buffer
draws. -/
def Packet.new (k12 : List ℕ → ℕ → ℕ) (versionMinor : ℕ)
    (draws : List (List ℕ)) (sig : List ℕ) (inType : ℕ)
    (computorPublicKey inNonce : List ℕ) : Option Packet :=
  let header := RequestResponseHeader.new inType sizeOfPacket versionMinor
  match gammaLoop k12 draws with
  | none => none
  | some (nonceBuffer, gammingKey) =>
    let gamma := squeeze k12 gammingKey 32
    some
      { header := header
        message :=
          { source_public_key := List.replicate 32 0
            destination_public_key := computorPublicKey
            gamming_nonce := nonceBuffer }
        solution_nonce := List.zipWith (fun a b => a ^^^ b) inNonce gamma
        signature := sig }

/-- The byte sequence sent for one packet
(`transmute::<Packet, [u8; size_of::<Packet>()]>` in `send_solution_task`):
the fields in declared order, the signature words little-endian. -/
def serialisePacket (p : Packet) : List ℕ :=
  p.header.size ++ [p.header.protocol] ++ p.header.dejavu ++
    [p.header.packetType] ++ p.message.source_public_key ++
    p.message.destination_public_key ++ p.message.gamming_nonce ++
    p.solution_nonce ++ (p.signature.map u64ToBytesLE).flatten

/-- The value of the 3-byte little-endian size field. -/
def sizeFieldValue (l : List ℕ) : ℕ :=
  l.getD 0 0 + 256 * l.getD 1 0 + 65536 * l.getD 2 0

/-- An all-zero XOF stub, used to exercise the packet builder on concrete
inputs. -/
def k12zero : List ℕ → ℕ → ℕ := fun _ _ => 0

/-- A placeholder packet for `Option.getD`. -/
def emptyPacket : Packet :=
  { header := { size := [], protocol := 0, dejavu := [], packetType := 0 }
    message :=
      { source_public_key := []
        destination_public_key := []
        gamming_nonce := [] }
    solution_nonce := []
    signature := [] }

/-! # Lemmas about the packet builder -/

/-- A successful `gammaLoop` returns one of the draws, together with the
hash of the 64-byte buffer built from it, and that hash has first byte
zero (the loop breaks exactly on `gamming_key[0] == 0`). -/
lemma gammaLoop_some (k12 : List ℕ → ℕ → ℕ) (draws : List (List ℕ))
    (nb gk : List ℕ) (h : gammaLoop k12 draws = some (nb, gk)) :
    nb ∈ draws ∧ gk = squeeze k12 (List.replicate 32 0 ++ nb) 32 ∧
      gk.headD 0 = 0 := by
  induction draws with
  | nil => simp [gammaLoop] at h
  | cons d rest ih =>
    by_cases h0 : (squeeze k12 (List.replicate 32 0 ++ d) 32).headD 0 = 0
    · rw [gammaLoop, if_pos h0] at h
      obtain ⟨rfl, rfl⟩ := Prod.mk.injEq .. ▸ Option.some.inj h
      exact ⟨List.mem_cons_self .., rfl, h0⟩
    · rw [gammaLoop, if_neg h0] at h
      obtain ⟨hm, hk, hz⟩ := ih h
      exact ⟨List.mem_cons_of_mem _ hm, hk, hz⟩

/-- A successful `Packet.new` is the explicit record built from the
gamming nonce the loop accepted. -/
lemma Packet.new_some (k12 : List ℕ → ℕ → ℕ) (versionMinor : ℕ)
    (draws : List (List ℕ)) (sig : List ℕ) (inType : ℕ)
    (computorPublicKey inNonce : List ℕ) (p : Packet)
    (h : Packet.new k12 versionMinor draws sig inType computorPublicKey
      inNonce = some p) :
    ∃ nb ∈ draws,
      (squeeze k12 (List.replicate 32 0 ++ nb) 32).headD 0 = 0 ∧
      p = { header := RequestResponseHeader.new inType sizeOfPacket
              versionMinor
            message :=
              { source_public_key := List.replicate 32 0
                destination_public_key := computorPublicKey
                gamming_nonce := nb }
            solution_nonce := List.zipWith (fun a b => a ^^^ b) inNonce
              (squeeze k12 (squeeze k12 (List.replicate 32 0 ++ nb) 32) 32)
            signature := sig } := by
  unfold Packet.new at h
  cases hg : gammaLoop k12 draws with
  | none => rw [hg] at h; exact absurd h (by simp)
  | some pair =>
    obtain ⟨nb, gk⟩ := pair
    rw [hg] at h
    obtain ⟨hm, hk, hz⟩ := gammaLoop_some k12 draws nb gk hg
    refine ⟨nb, hm, by rw [← hk]; exact hz, ?_⟩
    subst hk
    exact (Option.some.inj h).symm

/-- Claim C2, counterexample: with an all-zero XOF the very first draw is
accepted by the loop (the claim says it would be redrawn), and the
emitted packet's recomputed `gamming_key[0]` is `0`, not non-zero. -/
theorem packet_gamming_key_nonzero_refuted :
    (Packet.new k12zero 0 [List.replicate 32 1] (List.replicate 8 0) 1
        (List.replicate 32 0) (List.replicate 32 0)).map
      (fun p =>
        (squeeze k12zero
          (List.replicate 32 0 ++ p.message.gamming_nonce) 32).headD 0) =
      some 0 := by rfl

/-- Claim C2 (amended): the redraw loop in `Packet::new` repeats exactly
while `gamming_key[0]` is NON-zero; consequently, for every emitted
packet, the KangarooTwelve hash of the 64-byte buffer (32 zero bytes then
the packet's `gamming_nonce`) has FIRST BYTE ZERO. -/
theorem packet_gamming_key_head_zero (k12 : List ℕ → ℕ → ℕ)
    (versionMinor : ℕ) (draws : List (List ℕ)) (sig : List ℕ)
    (inType : ℕ) (computorPublicKey inNonce : List ℕ) (p : Packet)
    (h : Packet.new k12 versionMinor draws sig inType computorPublicKey
      inNonce = some p) :
    (squeeze k12 (List.replicate 32 0 ++ p.message.gamming_nonce) 32).headD 0
      = 0 := by
  obtain ⟨nb, _, hz, rfl⟩ := Packet.new_some _ _ _ _ _ _ _ _ h
  exact hz

/-- Concrete check of `packet_gamming_key_head_zero`. -/
theorem packet_gamming_key_head_zero_check :
    (squeeze k12zero
      (List.replicate 32 0 ++
        ((Packet.new k12zero 0 [List.replicate 32 1] (List.replicate 8 0) 1
          (List.replicate 32 0)
          (List.replicate 32 0)).getD emptyPacket).message.gamming_nonce)
      32).headD 0 = 0 :=
  packet_gamming_key_head_zero k12zero 0 [List.replicate 32 1]
    (List.replicate 8 0) 1 (List.replicate 32 0) (List.replicate 32 0) _
    (by rfl)

/-- Byte-wise XOR undoes itself. -/
lemma zipWith_xor_cancel (a b : List ℕ) (h : a.length = b.length) :
    List.zipWith (fun x y => x ^^^ y)
      (List.zipWith (fun x y => x ^^^ y) a b) b = a := by
  induction a generalizing b with
  | nil => simp
  | cons x xs ih =>
    cases b with
    | nil => simp at h
    | cons y ys =>
      simp only [List.zipWith_cons_cons, List.cons.injEq]
      exact ⟨by rw [Nat.xor_assoc, Nat.xor_self, Nat.xor_zero],
        ih ys (by simpa using h)⟩

/-- The squeeze of an XOF has the requested length. -/
lemma squeeze_length (k12 : List ℕ → ℕ → ℕ) (input : List ℕ) (n : ℕ) :
    (squeeze k12 input n).length = n := by simp [squeeze]

/-- Claim C3: gamma round-trip.  For every emitted packet, recomputing
gamma from the packet's `gamming_nonce` (hash 32 zero bytes plus the
nonce into `gamming_key`, hash `gamming_key` into gamma) and XOR-ing it
with the packet's `solution_nonce` yields the input nonce. -/
theorem gamma_round_trip (k12 : List ℕ → ℕ → ℕ) (versionMinor : ℕ)
    (draws : List (List ℕ)) (sig : List ℕ) (inType : ℕ)
    (computorPublicKey inNonce : List ℕ) (p : Packet)
    (hn : inNonce.length = 32)
    (h : Packet.new k12 versionMinor draws sig inType computorPublicKey
      inNonce = some p) :
    List.zipWith (fun a b => a ^^^ b) p.solution_nonce
      (squeeze k12
        (squeeze k12 (List.replicate 32 0 ++ p.message.gamming_nonce) 32)
        32) = inNonce := by
  obtain ⟨nb, _, _, rfl⟩ := Packet.new_some _ _ _ _ _ _ _ _ h
  exact zipWith_xor_cancel inNonce _ (by rw [squeeze_length, hn])

/-- Concrete check of `gamma_round_trip`. -/
theorem gamma_round_trip_check :
    List.zipWith (fun a b => a ^^^ b)
      ((Packet.new k12zero 0 [List.replicate 32 1] (List.replicate 8 0) 1
        (List.replicate 32 0)
        (List.replicate 32 0)).getD emptyPacket).solution_nonce
      (squeeze k12zero
        (squeeze k12zero
          (List.replicate 32 0 ++
            ((Packet.new k12zero 0 [List.replicate 32 1]
              (List.replicate 8 0) 1 (List.replicate 32 0)
              (List.replicate 32 0)).getD
                emptyPacket).message.gamming_nonce) 32) 32) =
      List.replicate 32 0 :=
  gamma_round_trip k12zero 0 [List.replicate 32 1] (List.replicate 8 0) 1
    (List.replicate 32 0) (List.replicate 32 0) _ (by simp) (by rfl)

/-- Claim C8, counterexample: a packet built by `Packet::new` has dejavu
`[0, 0, 0]` — all-zero on the wire, not a non-zero randomized tag
(`randomize_dejavu` exists but `RequestResponseHeader::new` calls
`zeroed_dejavu`). -/
theorem packet_dejavu_randomized_refuted :
    (Packet.new k12zero 0 [List.replicate 32 1] (List.replicate 8 0) 1
        (List.replicate 32 0) (List.replicate 32 0)).map
      (fun p => p.header.dejavu) = some [0, 0, 0] := by rfl

/-- Claim C8 (amended): for every packet built by `Packet::new`, the
3-byte dejavu field is zeroed. -/
theorem packet_dejavu_zeroed (k12 : List ℕ → ℕ → ℕ) (versionMinor : ℕ)
    (draws : List (List ℕ)) (sig : List ℕ) (inType : ℕ)
    (computorPublicKey inNonce : List ℕ) (p : Packet)
    (h : Packet.new k12 versionMinor draws sig inType computorPublicKey
      inNonce = some p) :
    p.header.dejavu = [0, 0, 0] := by
  obtain ⟨nb, _, _, rfl⟩ := Packet.new_some _ _ _ _ _ _ _ _ h
  rfl

/-- Concrete check of `packet_dejavu_zeroed`. -/
theorem packet_dejavu_zeroed_check :
    ((Packet.new k12zero 0 [List.replicate 32 1] (List.replicate 8 0) 1
      (List.replicate 32 0)
      (List.replicate 32 0)).getD emptyPacket).header.dejavu = [0, 0, 0] :=
  packet_dejavu_zeroed k12zero 0 [List.replicate 32 1] (List.replicate 8 0)
    1 (List.replicate 32 0) (List.replicate 32 0) _ (by rfl)

/-- Serialised length of the signature words. -/
lemma signature_bytes_length (l : List ℕ) :
    ((l.map u64ToBytesLE).flatten).length = 8 * l.length := by
  induction l with
  | nil => simp
  | cons x xs ih => simp [u64ToBytesLE, ih]; ring

/-- Claim C9: for every packet built by `Packet::new` and serialised for
transmission, the emitted byte-sequence length equals the value of the
3-byte little-endian size field, and both equal `size_of::<Packet>()`. -/
theorem packet_size_matches (k12 : List ℕ → ℕ → ℕ) (versionMinor : ℕ)
    (draws : List (List ℕ)) (sig : List ℕ) (inType : ℕ)
    (computorPublicKey inNonce : List ℕ) (p : Packet)
    (hdraws : ∀ d ∈ draws, d.length = 32) (hn : inNonce.length = 32)
    (hc : computorPublicKey.length = 32) (hs : sig.length = 8)
    (h : Packet.new k12 versionMinor draws sig inType computorPublicKey
      inNonce = some p) :
    (serialisePacket p).length = sizeFieldValue p.header.size ∧
      sizeFieldValue p.header.size = sizeOfPacket := by
  obtain ⟨nb, hm, _, rfl⟩ := Packet.new_some _ _ _ _ _ _ _ _ h
  have hsig : ((sig.map u64ToBytesLE).flatten).length = 64 := by
    rw [signature_bytes_length, hs]
  have hzip : (List.zipWith (fun a b => a ^^^ b) inNonce
      (squeeze k12 (squeeze k12 (List.replicate 32 0 ++ nb) 32) 32)).length
      = 32 := by
    simp [List.length_zipWith, hn, squeeze_length]
  constructor
  · simp only [serialisePacket, List.length_append, List.length_cons,
      List.length_nil, List.length_replicate]
    rw [hsig, hzip, hc, hdraws nb hm]
    rfl
  · rfl

/-- Concrete check of `packet_size_matches`. -/
theorem packet_size_matches_check :
    (serialisePacket
        ((Packet.new k12zero 0 [List.replicate 32 1] (List.replicate 8 0) 1
          (List.replicate 32 0)
          (List.replicate 32 0)).getD emptyPacket)).length =
      sizeFieldValue
        ((Packet.new k12zero 0 [List.replicate 32 1] (List.replicate 8 0) 1
          (List.replicate 32 0)
          (List.replicate 32 0)).getD emptyPacket).header.size ∧
      sizeFieldValue
        ((Packet.new k12zero 0 [List.replicate 32 1] (List.replicate 8 0) 1
          (List.replicate 32 0)
          (List.replicate 32 0)).getD emptyPacket).header.size =
        sizeOfPacket :=
  packet_size_matches k12zero 0 [List.replicate 32 1] (List.replicate 8 0)
    1 (List.replicate 32 0) (List.replicate 32 0) _ (by simp) (by simp)
    (by simp) (by simp) (by rfl)

/-! # Lemmas about the identity codec -/

lemma limbDigits_length (n : ℕ) : ∀ x : ℕ, (limbDigits n x).length = n := by
  induction n with
  | zero => intro x; rfl
  | succ m ih => intro x; simp [limbDigits, ih]

lemma limbDigits_getD (n : ℕ) :
    ∀ x j : ℕ, j < n →
      (limbDigits n x).getD j 0 = x / 26 ^ j % 26 + letterA := by
  induction n with
  | zero => omega
  | succ m ih =>
    intro x j hj
    cases j with
    | zero => simp [limbDigits]
    | succ k =>
      show (limbDigits m (x / 26)).getD k 0 = _
      rw [ih (x / 26) k (by omega), Nat.div_div_eq_div_mul, ← pow_succ']

lemma getD_append_left {l l' : List ℕ} {n : ℕ} (h : n < l.length) :
    (l ++ l').getD n 0 = l.getD n 0 := by
  simp [List.getD_eq_getElem?_getD, List.getElem?_append_left h]

lemma getD_append_right {l l' : List ℕ} {n : ℕ} (h : l.length ≤ n) :
    (l ++ l').getD n 0 = l'.getD (n - l.length) 0 := by
  simp [List.getD_eq_getElem?_getD, List.getElem?_append_right h]

/-- Evaluation of the decode loop on valid digits: the `j = 13 .. 0`
accumulation recovers `acc * 26 ^ n + x % 26 ^ n` (mod `2 ^ 64`). -/
lemma decodeLimb_some (id : List ℕ) (i x : ℕ) :
    ∀ (n acc : ℕ), acc < 2 ^ 64 →
      (∀ j, j < n → id.getD (i * 14 + j) 0 = x / 26 ^ j % 26 + letterA) →
      decodeLimb id i n acc = some ((acc * 26 ^ n + x % 26 ^ n) % 2 ^ 64) := by
  intro n
  induction n with
  | zero =>
    intro acc hacc _
    show some acc = _
    rw [pow_zero, Nat.mod_one, Nat.mul_one, Nat.add_zero,
      Nat.mod_eq_of_lt hacc]
  | succ m ih =>
    intro acc hacc hdig
    have hv := hdig m (by omega)
    have hd : x / 26 ^ m % 26 < 26 := Nat.mod_lt _ (by norm_num)
    rw [decodeLimb]
    simp only [hv]
    rw [if_neg (by simp only [letterA]; omega)]
    have hsub : x / 26 ^ m % 26 + letterA - letterA = x / 26 ^ m % 26 := by
      simp [letterA]
    rw [hsub, ih _ (Nat.mod_lt _ (by positivity))
      (fun j hj => hdig j (by omega))]
    congr 1
    have hmod : (acc * 26 + x / 26 ^ m % 26) % 2 ^ 64 * 26 ^ m +
        x % 26 ^ m ≡ (acc * 26 + x / 26 ^ m % 26) * 26 ^ m + x % 26 ^ m
        [MOD 2 ^ 64] :=
      Nat.ModEq.add_right _ ((Nat.mod_modEq _ _).mul_right _)
    rw [hmod]
    have : x % 26 ^ (m + 1) = x % 26 ^ m + 26 ^ m * (x / 26 ^ m % 26) :=
      Nat.mod_pow_succ
    rw [this]
    ring_nf

/-- The decode loop fails exactly when some examined byte is outside
`'A'..='Z'`. -/
lemma decodeLimb_none_iff (id : List ℕ) (i : ℕ) :
    ∀ (n acc : ℕ),
      (decodeLimb id i n acc = none ↔
        ∃ j, j < n ∧ (id.getD (i * 14 + j) 0 < 65 ∨
          90 < id.getD (i * 14 + j) 0)) := by
  intro n
  induction n with
  | zero => intro acc; simp [decodeLimb]
  | succ m ih =>
    intro acc
    rw [decodeLimb]
    by_cases hbad : id.getD (i * 14 + m) 0 < 65 ∨ 90 < id.getD (i * 14 + m) 0
    · rw [if_pos hbad]
      simp only [true_iff]
      exact ⟨m, by omega, hbad⟩
    · rw [if_neg hbad, ih]
      constructor
      · rintro ⟨j, hj, hP⟩
        exact ⟨j, by omega, hP⟩
      · rintro ⟨j, hj, hP⟩
        refine ⟨j, ?_, hP⟩
        rcases Nat.lt_or_ge j m with h | h
        · exact h
        · have : j = m := by omega
          subst this
          exact absurd hP hbad

/-- Claim C4: identity round-trip.  Encoding four arbitrary u64 limbs and
decoding the resulting 60-character identity succeeds and recovers the
limbs exactly (each limb is 14 little-endian base-26 digits and
`26 ^ 14 > 2 ^ 64`). -/
theorem identity_round_trip (k12 : List ℕ → ℕ → ℕ) (a b c d : ℕ)
    (ha : a < 2 ^ 64) (hb : b < 2 ^ 64) (hc : c < 2 ^ 64)
    (hd : d < 2 ^ 64) :
    get_public_key_64_from_id (get_id_from_public_key_64 k12 [a, b, c, d]) =
      (true, [a, b, c, d]) := by
  have hpow : (2 : ℕ) ^ 64 < 26 ^ 14 := by norm_num
  set ck := limbDigits 4 (identityChecksum k12 [a, b, c, d]) with hck
  have hid : get_id_from_public_key_64 k12 [a, b, c, d] =
      limbDigits 14 a ++ (limbDigits 14 b ++ (limbDigits 14 c ++
        (limbDigits 14 d ++ ck))) := by
    simp [get_id_from_public_key_64, hck]
  set id := get_id_from_public_key_64 k12 [a, b, c, d] with hid2
  have len14 : ∀ x : ℕ, (limbDigits 14 x).length = 14 := fun x =>
    limbDigits_length 14 x
  have hdig0 : ∀ j, j < 14 →
      id.getD (0 * 14 + j) 0 = a / 26 ^ j % 26 + letterA := by
    intro j hj
    rw [hid, Nat.zero_mul, Nat.zero_add,
      getD_append_left (by rw [len14]; omega), limbDigits_getD 14 a j hj]
  have hdig1 : ∀ j, j < 14 →
      id.getD (1 * 14 + j) 0 = b / 26 ^ j % 26 + letterA := by
    intro j hj
    rw [hid, getD_append_right (by rw [len14]; omega)]
    rw [len14, show 1 * 14 + j - 14 = j from by omega,
      getD_append_left (by rw [len14]; omega), limbDigits_getD 14 b j hj]
  have hdig2 : ∀ j, j < 14 →
      id.getD (2 * 14 + j) 0 = c / 26 ^ j % 26 + letterA := by
    intro j hj
    rw [hid, getD_append_right (by rw [len14]; omega)]
    rw [len14, show 2 * 14 + j - 14 = 14 + j from by omega,
      getD_append_right (by rw [len14]; omega)]
    rw [len14, show 14 + j - 14 = j from by omega,
      getD_append_left (by rw [len14]; omega), limbDigits_getD 14 c j hj]
  have hdig3 : ∀ j, j < 14 →
      id.getD (3 * 14 + j) 0 = d / 26 ^ j % 26 + letterA := by
    intro j hj
    rw [hid, getD_append_right (by rw [len14]; omega)]
    rw [len14, show 3 * 14 + j - 14 = 14 + (14 + j) from by omega,
      getD_append_right (by rw [len14]; omega)]
    rw [len14, show 14 + (14 + j) - 14 = 14 + j from by omega,
      getD_append_right (by rw [len14]; omega)]
    rw [len14, show 14 + j - 14 = j from by omega,
      getD_append_left (by rw [len14]; omega), limbDigits_getD 14 d j hj]
  have hval : ∀ x : ℕ, x < 2 ^ 64 →
      ((0 * 26 ^ 14 + x % 26 ^ 14) % 2 ^ 64) = x := by
    intro x hx
    rw [Nat.zero_mul, Nat.zero_add,
      Nat.mod_eq_of_lt (lt_of_le_of_lt (Nat.mod_le x _) hx),
      Nat.mod_eq_of_lt (lt_trans hx hpow)]
  have h0 : decodeLimb id 0 14 0 = some a := by
    rw [decodeLimb_some id 0 a 14 0 (by positivity) hdig0, hval a ha]
  have h1 : decodeLimb id 1 14 0 = some b := by
    rw [decodeLimb_some id 1 b 14 0 (by positivity) hdig1, hval b hb]
  have h2 : decodeLimb id 2 14 0 = some c := by
    rw [decodeLimb_some id 2 c 14 0 (by positivity) hdig2, hval c hc]
  have h3 : decodeLimb id 3 14 0 = some d := by
    rw [decodeLimb_some id 3 d 14 0 (by positivity) hdig3, hval d hd]
  rw [get_public_key_64_from_id, h0, h1, h2, h3]

/-- Concrete check of `identity_round_trip`. -/
theorem identity_round_trip_check :
    get_public_key_64_from_id
        (get_id_from_public_key_64 k12zero [1, 2, 3, 18446744073709551615])
      = (true, [1, 2, 3, 18446744073709551615]) :=
  identity_round_trip k12zero 1 2 3 18446744073709551615 (by norm_num)
    (by norm_num) (by norm_num) (by norm_num)

/-- Index arithmetic: positions below 56 split into the four limb
ranges. -/
lemma exists_lt56_split (P : ℕ → Prop) :
    (∃ k, k < 56 ∧ P k) ↔
      ((∃ j, j < 14 ∧ P (0 * 14 + j)) ∨ (∃ j, j < 14 ∧ P (1 * 14 + j)) ∨
       (∃ j, j < 14 ∧ P (2 * 14 + j)) ∨ (∃ j, j < 14 ∧ P (3 * 14 + j))) := by
  constructor
  · rintro ⟨k, hk, hP⟩
    rcases Nat.lt_or_ge k 14 with h1 | h1
    · exact Or.inl ⟨k, h1, by simpa using hP⟩
    rcases Nat.lt_or_ge k 28 with h2 | h2
    · exact Or.inr (Or.inl ⟨k - 14, by omega,
        by rw [show 1 * 14 + (k - 14) = k from by omega]; exact hP⟩)
    rcases Nat.lt_or_ge k 42 with h3 | h3
    · exact Or.inr (Or.inr (Or.inl ⟨k - 28, by omega,
        by rw [show 2 * 14 + (k - 28) = k from by omega]; exact hP⟩))
    · exact Or.inr (Or.inr (Or.inr ⟨k - 42, by omega,
        by rw [show 3 * 14 + (k - 42) = k from by omega]; exact hP⟩))
  · rintro (⟨j, hj, hP⟩ | ⟨j, hj, hP⟩ | ⟨j, hj, hP⟩ | ⟨j, hj, hP⟩) <;>
      exact ⟨_, by omega, hP⟩

/-- Claim C5, counterexample: an identity whose last four (checksum)
bytes are lowercase `'a'` (97) is ACCEPTED by
`get_public_key_64_from_id` — the claim says any byte outside `A..=Z`
anywhere in the 60 bytes is rejected, but only the first 56 bytes are
examined. -/
theorem decode_rejects_lowercase_refuted :
    (get_public_key_64_from_id
        (List.replicate 56 65 ++ List.replicate 4 97)).1 = true ∧
      (List.replicate 56 65 ++ List.replicate 4 97).getD 56 0 = 97 := by
  constructor <;> rfl

/-- Claim C5 (amended): `get_public_key_64_from_id` returns `false` iff
some byte among the FIRST 56 lies outside `'A'..='Z'`; the trailing 4
checksum characters are never examined. -/
theorem decode_invalid_iff (id : List ℕ) (hlen : id.length = 60) :
    ((get_public_key_64_from_id id).1 = false) ↔
      ∃ k, k < 56 ∧ (id.getD k 0 < 65 ∨ 90 < id.getD k 0) := by
  rw [exists_lt56_split, ← decodeLimb_none_iff id 0 14 0,
    ← decodeLimb_none_iff id 1 14 0, ← decodeLimb_none_iff id 2 14 0,
    ← decodeLimb_none_iff id 3 14 0]
  rcases h0 : decodeLimb id 0 14 0 with _ | p0 <;>
    rcases h1 : decodeLimb id 1 14 0 with _ | p1 <;>
      rcases h2 : decodeLimb id 2 14 0 with _ | p2 <;>
        rcases h3 : decodeLimb id 3 14 0 with _ | p3 <;>
          simp [get_public_key_64_from_id, h0, h1, h2, h3]

/-- Concrete check of `decode_invalid_iff`. -/
theorem decode_invalid_iff_check :
    ((get_public_key_64_from_id (List.replicate 60 97)).1 = false) ↔
      ∃ k, k < 56 ∧ ((List.replicate 60 97).getD k 0 < 65 ∨
        90 < (List.replicate 60 97).getD k 0) :=
  decode_invalid_iff (List.replicate 60 97) (by simp)

/-- Claim C10: whenever `get_public_key_64_from_id` returns `false`, the
out-parameter is left `[0, 0, 0, 0]` (the partially accumulated limbs are
wiped before returning). -/
theorem decode_failure_zeroes_key (id : List ℕ)
    (h : (get_public_key_64_from_id id).1 = false) :
    (get_public_key_64_from_id id).2 = [0, 0, 0, 0] := by
  rcases h0 : decodeLimb id 0 14 0 with _ | p0 <;>
    rcases h1 : decodeLimb id 1 14 0 with _ | p1 <;>
      rcases h2 : decodeLimb id 2 14 0 with _ | p2 <;>
        rcases h3 : decodeLimb id 3 14 0 with _ | p3 <;>
          simp_all [get_public_key_64_from_id]

/-- Concrete check of `decode_failure_zeroes_key`. -/
theorem decode_failure_zeroes_key_check :
    (get_public_key_64_from_id (List.replicate 60 97)).2 = [0, 0, 0, 0] :=
  decode_failure_zeroes_key (List.replicate 60 97) (by rfl)

/-! # Keccak expander (`Qiner/src/math.rs`) and scoring kernel
(`Qiner/src/miner.rs`)

The 12-round `keccak::p1600` permutation is an external crate; it enters
as a function parameter `perm` on the 25-word state.  Large u64/u8 arrays
(`NeuronLinks64`, `NeuronValues`) are modelled as functions `ℕ → ℕ`. -/

/-- The squeeze loop of `random_64`: walk the output in chunks of up to
25 words; before each chunk apply the permutation to the state, then copy
the first `chunk.len()` state words out. -/
def squeezeChunks (perm : List ℕ → List ℕ) (state : List ℕ)
    (outLen : ℕ) : List ℕ :=
  if h : outLen = 0 then []
  else
    let s := perm state
    s.take (min outLen STATE_SIZE_64) ++
      squeezeChunks perm s (outLen - STATE_SIZE_64)
termination_by outLen
decreasing_by simp [STATE_SIZE_64]; omega

/-- Expander `random_64(public_key, nonce, output)`: key into state words 0..4,
nonce into words 4..8, the remaining 17 words zero; then squeeze. -/
def random_64 (perm : List ℕ → List ℕ) (publicKey nonce : List ℕ)
    (outLen : ℕ) : List ℕ :=
  squeezeChunks perm (publicKey ++ nonce ++ List.replicate 17 0) outLen

/-- Per-worker neuron links and values (`NeuronData`). -/
structure NeuronData where
  neuron_links : ℕ → ℕ
  neuron_values : ℕ → ℕ

/-- Constructor `NeuronData::new()`: links zeroed, every neuron value
`NeuronValue::MAX = 0xFF`. -/
def NeuronData.new : NeuronData :=
  { neuron_links := fun _ => 0, neuron_values := fun _ => 255 }

/-- The derived `Default` used by `Miner::run`
(`NeuronData::default()`): both arrays zero-initialised. -/
def NeuronData.zeroed : NeuronData :=
  { neuron_links := fun _ => 0, neuron_values := fun _ => 0 }

/-- NAND `!(a & b)` on a byte. -/
def nandByte (a b : ℕ) : ℕ := 255 ^^^ (a &&& b)

/-- One neuron write:
`values[n] = !(values[links[n] as u32] & values[(links[n] >> 32) as u32])`,
reading the current (partially updated) array `s`. -/
def pairStep (links : ℕ → ℕ) (s : ℕ → ℕ) (n : ℕ) : ℕ → ℕ :=
  fun j =>
    if j = n then
      nandByte (s (links n &&& 4294967295))
        (s ((links n >>> 32) &&& 4294967295))
    else s j

/-- The neuron writes of the update loop taken one index at a time, in
the order the source performs them (`0, 1, 2, ...`). -/
def seqUpdate (links : ℕ → ℕ) (v : ℕ → ℕ) : ℕ → (ℕ → ℕ)
  | 0 => v
  | n + 1 => pairStep links (seqUpdate links v n) n

/-- The inner `for idx in 0..NUMBER_OF_NEURONS_64` loop of
`find_solution`: each iteration writes neuron `2*idx` from links word
`2*idx`, then neuron `2*idx + 1` from links word `2*idx + 1`. -/
def neuronPairLoop (links : ℕ → ℕ) (v : ℕ → ℕ) : ℕ → (ℕ → ℕ)
  | 0 => v
  | idx + 1 =>
    pairStep links (pairStep links (neuronPairLoop links v idx) (2 * idx))
      (2 * idx + 1)

/-- Outcome of the scoring loop: normal exit with the final score,
an out-of-bounds `mining_data[score >> 6]` access (a Rust panic), or
fuel exhaustion of the embedding. -/
inductive LoopResult where
  | done (score : ℕ)
  | oob (score : ℕ)
  | spin
deriving Repr, DecidableEq

/-- The scoring loop of `find_solution`: snapshot the last two neuron
values, run the pair loop, look up the tape bit at `score`, and classify
the round (A-event / B-event / neither-or-both). -/
def scoringLoop (miningData links : ℕ → ℕ) :
    ℕ → (ℕ → ℕ) → ℕ → ℕ → LoopResult
  | 0, _, _, _ => .spin
  | fuel + 1, v, remaining, score =>
    let prev0 := v (NUMBER_OF_NEURONS - 1)
    let prev1 := v (NUMBER_OF_NEURONS - 2)
    let v2 := neuronPairLoop links v NUMBER_OF_NEURONS_64
    let cur0 := v2 (NUMBER_OF_NEURONS - 1)
    let cur1 := v2 (NUMBER_OF_NEURONS - 2)
    if MINING_DATA_LENGTH ≤ score >>> 6 then .oob score
    else
      let bit := (miningData (score >>> 6) >>> (score &&& 63)) &&& 1
      if cur0 ≠ prev0 ∧ cur1 = prev1 then
        if bit = 0 then .done score
        else scoringLoop miningData links fuel v2 remaining (score + 1)
      else if cur1 ≠ prev1 ∧ cur0 = prev0 then
        if bit = 1 then .done score
        else scoringLoop miningData links fuel v2 remaining (score + 1)
      else if remaining - 1 = 0 then .done score
      else scoringLoop miningData links fuel v2 (remaining - 1) score

/-- The link table used by the scoring loop: `random_64(public_key,
nonce, links)` masked word-wise with `NEURON_MOD_BITS` (the two masking
loops together cover every index below `NUMBER_OF_NEURONS_64 * 2`). -/
def derivedLinks (perm : List ℕ → List ℕ) (publicKey nonce : List ℕ) :
    ℕ → ℕ :=
  fun i =>
    (random_64 perm publicKey nonce (NUMBER_OF_NEURONS_64 * 2)).getD i 0 &&&
      NEURON_MOD_BITS

/-- Kernel `Miner::find_solution` for a freshly drawn `nonce`: derive and mask
the link table, then run the scoring loop on the INCOMING
`neuron_data.neuron_values` (the code writes no values before the loop)
with `remaining = MINING_DATA_LENGTH` and `score = 0`. -/
def find_solution (perm : List ℕ → List ℕ) (publicKey nonce : List ℕ)
    (miningData : ℕ → ℕ) (fuel : ℕ) (neuronData : NeuronData) :
    LoopResult :=
  scoringLoop miningData (derivedLinks perm publicKey nonce) fuel
    neuronData.neuron_values MINING_DATA_LENGTH 0

/-- The boolean `find_solution` returns: `score >= solution_threshold`
on normal exit (`none` when the loop panics or the fuel runs out). -/
def find_solution_bool (perm : List ℕ → List ℕ)
    (publicKey nonce : List ℕ) (miningData : ℕ → ℕ)
    (solutionThreshold fuel : ℕ) (neuronData : NeuronData) : Option Bool :=
  match find_solution perm publicKey nonce miningData fuel neuronData with
  | .done score => some (decide (solutionThreshold ≤ score))
  | _ => none

/-! # Claim C6: link masking -/

/-- Claim C6: every word of the masked link table of `find_solution`
unpacks into two u32 halves strictly below `NUMBER_OF_NEURONS`, for every
permutation backend, public key and nonce. -/
theorem derived_links_lt (perm : List ℕ → List ℕ)
    (publicKey nonce : List ℕ) (i : ℕ)
    (hi : i < NUMBER_OF_NEURONS_64 * 2) :
    derivedLinks perm publicKey nonce i &&& 4294967295 < NUMBER_OF_NEURONS ∧
      derivedLinks perm publicKey nonce i >>> 32 < NUMBER_OF_NEURONS := by
  set x := (random_64 perm publicKey nonce
    (NUMBER_OF_NEURONS_64 * 2)).getD i 0 with hx
  have hmod : NEURON_MOD_BITS &&& 4294967295 = 4194303 := by decide
  have hlow : derivedLinks perm publicKey nonce i &&& 4294967295 =
      x &&& 4194303 := by
    rw [derivedLinks, ← hx, Nat.and_assoc, hmod]
  constructor
  · rw [hlow, show (4194303 : ℕ) = 2 ^ 22 - 1 from by norm_num,
      Nat.and_pow_two_sub_one_eq_mod]
    exact Nat.mod_lt _ (by norm_num [NUMBER_OF_NEURONS])
  · have hle : derivedLinks perm publicKey nonce i ≤ NEURON_MOD_BITS :=
      Nat.and_le_right
    have : derivedLinks perm publicKey nonce i >>> 32 ≤
        NEURON_MOD_BITS >>> 32 := by
      simpa [Nat.shiftRight_eq_div_pow] using
        Nat.div_le_div_right (c := 2 ^ 32) hle
    have hmod32 : NEURON_MOD_BITS >>> 32 = 4194303 := by decide
    rw [hmod32] at this
    exact lt_of_le_of_lt this (by norm_num [NUMBER_OF_NEURONS])

/-- Concrete check of `derived_links_lt`. -/
theorem derived_links_lt_check :
    derivedLinks (fun _ => List.replicate 25 0) [0, 0, 0, 0] [0, 0, 0, 0] 0
        &&& 4294967295 < NUMBER_OF_NEURONS ∧
      derivedLinks (fun _ => List.replicate 25 0) [0, 0, 0, 0] [0, 0, 0, 0] 0
        >>> 32 < NUMBER_OF_NEURONS :=
  derived_links_lt (fun _ => List.replicate 25 0) [0, 0, 0, 0] [0, 0, 0, 0]
    0 (by decide)

/-! # The pair loop is the sequential write loop -/

/-- The pair loop writes index `2*idx`, then `2*idx + 1`: it performs the
same writes as the one-index-at-a-time loop. -/
lemma neuronPairLoop_eq_seqUpdate (links v : ℕ → ℕ) :
    ∀ k : ℕ, neuronPairLoop links v k = seqUpdate links v (2 * k) := by
  intro k
  induction k with
  | zero => rfl
  | succ m ih =>
    rw [show 2 * (m + 1) = 2 * m + 1 + 1 from by ring]
    rw [neuronPairLoop, seqUpdate, seqUpdate, ih]

/-! # Evaluating the expander under a constant permutation

Instantiating the external permutation with a constant function makes
`random_64`'s output periodic with period 25; this is used to realise
concrete link tables through `find_solution` itself. -/

lemma state_size_eq : STATE_SIZE_64 = 25 := rfl

lemma squeezeChunks_const_getD (S : List ℕ) (hS : S.length = 25) :
    ∀ (L : ℕ), ∀ (st : List ℕ) (i : ℕ), i < L →
      (squeezeChunks (fun _ => S) st L).getD i 0 = S.getD (i % 25) 0 := by
  intro L
  induction L using Nat.strong_induction_on with
  | _ L ih =>
    intro st i hi
    rw [squeezeChunks, dif_neg (by omega), state_size_eq]
    have hlen : (S.take (min L 25)).length = min L 25 := by
      rw [List.length_take, hS]
      omega
    by_cases h25 : i < min L 25
    · rw [getD_append_left (by rw [hlen]; exact h25)]
      have hi25 : i < 25 := by omega
      rw [List.getD_eq_getElem?_getD, List.getElem?_take_of_lt h25,
        ← List.getD_eq_getElem?_getD, Nat.mod_eq_of_lt hi25]
    · have hL25 : 25 < L := by omega
      rw [getD_append_right (by rw [hlen]; omega), hlen,
        show min L 25 = 25 from by omega,
        ih (L - 25) (by omega) S (i - 25) (by omega)]
      congr 1
      omega

lemma derivedLinks_constPerm (S : List ℕ) (hS : S.length = 25)
    (publicKey nonce : List ℕ) (i : ℕ)
    (hi : i < NUMBER_OF_NEURONS_64 * 2) :
    derivedLinks (fun _ => S) publicKey nonce i =
      S.getD (i % 25) 0 &&& NEURON_MOD_BITS := by
  rw [derivedLinks, random_64, squeezeChunks_const_getD S hS _ _ i hi]

/-! # Two concrete link tables

`linkPrev` packs `(N-2, N-2)`, `linkSelf` packs `(N-1, N-1)` and
`linkHighLast` packs `(0, N-1)` into one u64 link word
(`N = NUMBER_OF_NEURONS`); all three are fixed points of the
`NEURON_MOD_BITS` mask, so a constant permutation realises the periodic
tables `links7` and `links1` below through `random_64` and masking. -/

def linkPrev : ℕ := 4194302 + 4194302 * 4294967296

def linkSelf : ℕ := 4194303 + 4194303 * 4294967296

def linkHighLast : ℕ := 4194303 * 4294967296

/-- State words realising `links7` under a constant permutation. -/
def S7 : List ℕ :=
  (List.range 25).map fun r =>
    if r = 0 then linkPrev else if r = 3 then linkSelf else 0

/-- Neuron `n` reads `(N-2, N-2)` when `n ≡ 0 [25]`, `(N-1, N-1)` when
`n ≡ 3 [25]` (in particular neuron `N-1` itself), `(0, 0)` otherwise. -/
def links7 : ℕ → ℕ := fun i =>
  if i % 25 = 0 then linkPrev else if i % 25 = 3 then linkSelf else 0

/-- State words realising `links1` under a constant permutation. -/
def S1 : List ℕ :=
  (List.range 25).map fun r => if r = 3 then linkHighLast else 0

/-- Neuron `n` reads `(0, N-1)` when `n ≡ 3 [25]`, `(0, 0)` otherwise. -/
def links1 : ℕ → ℕ := fun i => if i % 25 = 3 then linkHighLast else 0

lemma S7_getD (r : ℕ) (hr : r < 25) :
    S7.getD r 0 = (if r = 0 then linkPrev else if r = 3 then linkSelf
      else 0) := by
  interval_cases r <;> rfl

lemma S1_getD (r : ℕ) (hr : r < 25) :
    S1.getD r 0 = (if r = 3 then linkHighLast else 0) := by
  interval_cases r <;> rfl

lemma two_n64 : NUMBER_OF_NEURONS_64 * 2 = NUMBER_OF_NEURONS := by decide

lemma two_n64_left : 2 * NUMBER_OF_NEURONS_64 = NUMBER_OF_NEURONS := by
  decide

lemma derivedLinks_S7 (publicKey nonce : List ℕ) (i : ℕ)
    (hi : i < NUMBER_OF_NEURONS) :
    derivedLinks (fun _ => S7) publicKey nonce i = links7 i := by
  rw [derivedLinks_constPerm S7 (by simp [S7]) publicKey nonce i
    (by rw [two_n64]; exact hi)]
  rw [S7_getD _ (Nat.mod_lt _ (by norm_num))]
  unfold links7
  by_cases h0 : i % 25 = 0
  · simp only [h0]; decide
  by_cases h3 : i % 25 = 3
  · simp only [if_neg h0, h3]; decide
  · simp only [if_neg h0, if_neg h3]; decide

lemma derivedLinks_S1 (publicKey nonce : List ℕ) (i : ℕ)
    (hi : i < NUMBER_OF_NEURONS) :
    derivedLinks (fun _ => S1) publicKey nonce i = links1 i := by
  rw [derivedLinks_constPerm S1 (by simp [S1]) publicKey nonce i
    (by rw [two_n64]; exact hi)]
  rw [S1_getD _ (Nat.mod_lt _ (by norm_num))]
  unfold links1
  by_cases h3 : i % 25 = 3
  · simp only [h3]; decide
  · simp only [if_neg h3]; decide

/-! # One round of the update loop under the crafted tables -/

lemma nandByte_self (x : ℕ) : nandByte x x = 255 ^^^ x := by
  rw [nandByte, Nat.and_self]

lemma xor255_cancel (x : ℕ) : 255 ^^^ (255 ^^^ x) = x := by
  rw [← Nat.xor_assoc, Nat.xor_self, Nat.zero_xor]

lemma xor255_ne (x : ℕ) : 255 ^^^ x ≠ x := by
  intro h
  have h2 : (255 ^^^ x) ^^^ x = x ^^^ x := by rw [h]
  rw [Nat.xor_assoc, Nat.xor_self, Nat.xor_zero] at h2
  exact absurd h2 (by norm_num)

lemma linkPrev_low : linkPrev &&& 4294967295 = 4194302 := by decide

lemma linkPrev_high : (linkPrev >>> 32) &&& 4294967295 = 4194302 := by
  decide

lemma linkSelf_low : linkSelf &&& 4294967295 = 4194303 := by decide

lemma linkSelf_high : (linkSelf >>> 32) &&& 4294967295 = 4194303 := by
  decide

lemma linkHighLast_low : linkHighLast &&& 4294967295 = 0 := by decide

lemma linkHighLast_high : (linkHighLast >>> 32) &&& 4294967295 = 4194303 :=
  by decide

/-- The value a full round writes into neuron `j` under `links7`
(neurons `N-2 = 4194302` and `N-1 = 4194303` are read before they are
written, so the round keeps `v (N-2)` and toggles `v (N-1)`). -/
def image7core (v : ℕ → ℕ) (j : ℕ) : ℕ :=
  if j % 25 = 0 then 255 ^^^ v 4194302
  else if j % 25 = 3 then 255 ^^^ v 4194303
  else v 4194302

lemma seqUpdate_links7 (L : ℕ → ℕ)
    (hL : ∀ i, i < NUMBER_OF_NEURONS → L i = links7 i) (v : ℕ → ℕ) :
    ∀ k, k ≤ NUMBER_OF_NEURONS →
      seqUpdate L v k = fun j => if j < k then image7core v j else v j := by
  intro k
  induction k with
  | zero =>
    intro _
    funext j
    simp [seqUpdate]
  | succ m ih =>
    intro hm
    have hmN : m < NUMBER_OF_NEURONS := by omega
    have hm4 : m < 4194304 := hmN
    rw [seqUpdate, ih (by omega)]
    funext j
    simp only [pairStep]
    by_cases hj : j = m
    · subst hj
      rw [if_pos rfl, if_pos (by omega : j < j + 1)]
      by_cases h0 : j % 25 = 0
      · have hlk : L j = linkPrev := by rw [hL j hmN]; simp [links7, h0]
        rw [hlk, linkPrev_low, linkPrev_high]
        rw [if_neg (show ¬ (4194302 < j) from by omega), nandByte_self]
        simp [image7core, h0]
      by_cases h3 : j % 25 = 3
      · have hlk : L j = linkSelf := by
          rw [hL j hmN]; simp [links7, h0, h3]
        rw [hlk, linkSelf_low, linkSelf_high]
        rw [if_neg (show ¬ (4194303 < j) from by omega), nandByte_self]
        simp [image7core, h0, h3]
      · have hlk : L j = 0 := by rw [hL j hmN]; simp [links7, h0, h3]
        have hj0 : 0 < j := by omega
        rw [hlk, Nat.zero_and, Nat.zero_shiftRight, Nat.zero_and]
        rw [if_pos hj0,
          show image7core v 0 = 255 ^^^ v 4194302 from by simp [image7core],
          nandByte_self, xor255_cancel]
        simp [image7core, h0, h3]
    · rw [if_neg hj]
      by_cases hjm : j < m
      · rw [if_pos hjm, if_pos (by omega)]
      · rw [if_neg hjm, if_neg (by omega)]

/-- The state after one full round under `links7`. -/
def roundImage7 (v : ℕ → ℕ) : ℕ → ℕ :=
  fun j => if j < NUMBER_OF_NEURONS then image7core v j else v j

/-- One full `for idx in 0..NUMBER_OF_NEURONS_64` round under `links7`. -/
lemma neuronPairLoop_links7 (L : ℕ → ℕ)
    (hL : ∀ i, i < NUMBER_OF_NEURONS → L i = links7 i) (v : ℕ → ℕ) :
    neuronPairLoop L v NUMBER_OF_NEURONS_64 = roundImage7 v := by
  rw [neuronPairLoop_eq_seqUpdate, two_n64_left]
  show _ = fun j => if j < NUMBER_OF_NEURONS then image7core v j else v j
  exact seqUpdate_links7 L hL v NUMBER_OF_NEURONS le_rfl

/-- The value a full round writes into neuron `j` under `links1`
(neuron `N-2` is rewritten to the old `v 0`, neuron `N-1` to
`!((!v 0) & v (N-1))`). -/
def image1core (v : ℕ → ℕ) (j : ℕ) : ℕ :=
  if j = 0 then 255 ^^^ v 0
  else if j % 25 = 3 then 255 ^^^ ((255 ^^^ v 0) &&& v 4194303)
  else v 0

lemma seqUpdate_links1 (L : ℕ → ℕ)
    (hL : ∀ i, i < NUMBER_OF_NEURONS → L i = links1 i) (v : ℕ → ℕ) :
    ∀ k, k ≤ NUMBER_OF_NEURONS →
      seqUpdate L v k = fun j => if j < k then image1core v j else v j := by
  intro k
  induction k with
  | zero =>
    intro _
    funext j
    simp [seqUpdate]
  | succ m ih =>
    intro hm
    have hmN : m < NUMBER_OF_NEURONS := by omega
    have hm4 : m < 4194304 := hmN
    rw [seqUpdate, ih (by omega)]
    funext j
    simp only [pairStep]
    by_cases hj : j = m
    · subst hj
      rw [if_pos rfl, if_pos (by omega : j < j + 1)]
      by_cases hz : j = 0
      · subst hz
        have hlk : L 0 = 0 := by rw [hL 0 hmN]; simp [links1]
        rw [hlk, Nat.zero_and, Nat.zero_shiftRight, Nat.zero_and]
        rw [if_neg (by omega : ¬ (0 : ℕ) < 0), nandByte_self]
        simp [image1core]
      by_cases h3 : j % 25 = 3
      · have hlk : L j = linkHighLast := by
          rw [hL j hmN]; simp [links1, h3]
        rw [hlk, linkHighLast_low, linkHighLast_high]
        rw [if_pos (by omega : 0 < j),
          if_neg (show ¬ (4194303 < j) from by omega),
          show image1core v 0 = 255 ^^^ v 0 from by simp [image1core]]
        simp [nandByte, image1core, hz, h3]
      · have hlk : L j = 0 := by rw [hL j hmN]; simp [links1, h3]
        rw [hlk, Nat.zero_and, Nat.zero_shiftRight, Nat.zero_and]
        rw [if_pos (by omega : 0 < j),
          show image1core v 0 = 255 ^^^ v 0 from by simp [image1core],
          nandByte_self, xor255_cancel]
        simp [image1core, hz, h3]
    · rw [if_neg hj]
      by_cases hjm : j < m
      · rw [if_pos hjm, if_pos (by omega)]
      · rw [if_neg hjm, if_neg (by omega)]

/-- The state after one full round under `links1`. -/
def roundImage1 (v : ℕ → ℕ) : ℕ → ℕ :=
  fun j => if j < NUMBER_OF_NEURONS then image1core v j else v j

/-- One full round under `links1`. -/
lemma neuronPairLoop_links1 (L : ℕ → ℕ)
    (hL : ∀ i, i < NUMBER_OF_NEURONS → L i = links1 i) (v : ℕ → ℕ) :
    neuronPairLoop L v NUMBER_OF_NEURONS_64 = roundImage1 v := by
  rw [neuronPairLoop_eq_seqUpdate, two_n64_left]
  show _ = fun j => if j < NUMBER_OF_NEURONS then image1core v j else v j
  exact seqUpdate_links1 L hL v NUMBER_OF_NEURONS le_rfl

/-! # Claim C7: reachability of the out-of-bounds tape lookup -/

lemma nSub1 : NUMBER_OF_NEURONS - 1 = 4194303 := by
  norm_num [NUMBER_OF_NEURONS]

lemma nSub2 : NUMBER_OF_NEURONS - 2 = 4194302 := by
  norm_num [NUMBER_OF_NEURONS]

/-- An all-ones mining tape (every classification bit is 1). -/
def onesTape : ℕ → ℕ := fun _ => 18446744073709551615

lemma ones_bit (s : ℕ) : (onesTape (s >>> 6) >>> (s &&& 63)) &&& 1 = 1 := by
  have h63 : s &&& 63 = s % 64 := by
    rw [show (63 : ℕ) = 2 ^ 6 - 1 from rfl, Nat.and_pow_two_sub_one_eq_mod]
  have hall : ∀ t, t < 64 →
      ((18446744073709551615 : ℕ) >>> t) &&& 1 = 1 := by decide
  rw [onesTape, h63]
  exact hall _ (Nat.mod_lt _ (by norm_num))

lemma roundImage7_last (v : ℕ → ℕ) :
    roundImage7 v 4194303 = 255 ^^^ v 4194303 := by
  rw [roundImage7]
  rw [if_pos (by norm_num [NUMBER_OF_NEURONS])]
  rw [image7core, if_neg (by norm_num), if_pos (by norm_num)]

lemma roundImage7_prev (v : ℕ → ℕ) :
    roundImage7 v 4194302 = v 4194302 := by
  rw [roundImage7]
  rw [if_pos (by norm_num [NUMBER_OF_NEURONS])]
  rw [image7core, if_neg (by norm_num), if_neg (by norm_num)]

/-- Under `links7` and an all-ones tape, every round is an A-event with a
set bit, so the score grows by one per round until the lookup at
`score = 65536` falls outside the tape. -/
lemma scoringLoop_links7_oob (L : ℕ → ℕ)
    (hL : ∀ i, i < NUMBER_OF_NEURONS → L i = links7 i) :
    ∀ (fuel score remaining : ℕ) (v : ℕ → ℕ), score ≤ 65536 →
      65536 - score < fuel →
      scoringLoop onesTape L fuel v remaining score = .oob 65536 := by
  intro fuel
  induction fuel with
  | zero => intro score remaining v hs hf; omega
  | succ f ih =>
    intro score remaining v hs hf
    simp only [scoringLoop, nSub1, nSub2]
    rw [neuronPairLoop_links7 L hL v, roundImage7_last, roundImage7_prev]
    by_cases hsc : score = 65536
    · subst hsc
      rw [if_pos (by decide : MINING_DATA_LENGTH ≤ 65536 >>> 6)]
    · have hpan : ¬ (MINING_DATA_LENGTH ≤ score >>> 6) := by
        rw [Nat.shiftRight_eq_div_pow,
          show (2 : ℕ) ^ 6 = 64 from by norm_num]
        simp only [MINING_DATA_LENGTH]
        omega
      rw [if_neg hpan, if_pos ⟨xor255_ne _, rfl⟩, ones_bit,
        if_neg (by norm_num : ¬ (1 : ℕ) = 0)]
      exact ih (score + 1) remaining (roundImage7 v) (by omega) (by omega)

/-- Claim C7, counterexample: running `find_solution` with the constant
permutation realising `links7`, an all-ones tape and freshly initialised
(all-`0xFF`) neuron values reaches the out-of-bounds access
`mining_data[1024]` with `score = 65536`: the out-of-bounds branch is
REACHABLE for some link tables and tapes. -/
theorem scoring_oob_reachable :
    find_solution (fun _ => S7) [0, 0, 0, 0] [0, 0, 0, 0] onesTape 65537
      NeuronData.new = .oob 65536 := by
  rw [find_solution]
  exact scoringLoop_links7_oob _
    (fun i hi => derivedLinks_S7 [0, 0, 0, 0] [0, 0, 0, 0] i hi)
    65537 0 MINING_DATA_LENGTH _ (by omega) (by omega)

/-- Claim C7 (amended): in every execution of the scoring loop started at
`score ≤ 65536` (in particular `find_solution`'s, which starts at 0), an
out-of-bounds tape lookup can only happen with `score` exactly `65536 =
MINING_DATA_LENGTH * 64`; every lookup with `score < 65536` is in
bounds.  The bound is tight: `scoring_oob_reachable` shows the panic is
reachable, so it is NOT unreachable for all link tables and tapes. -/
theorem scoring_oob_only_at_bound (miningData links : ℕ → ℕ) :
    ∀ (fuel score remaining : ℕ) (v : ℕ → ℕ) (s : ℕ), score ≤ 65536 →
      scoringLoop miningData links fuel v remaining score = .oob s →
      s = 65536 := by
  intro fuel
  induction fuel with
  | zero =>
    intro score remaining v s hs h
    exact absurd h (by simp [scoringLoop])
  | succ f ih =>
    intro score remaining v s hs h
    simp only [scoringLoop] at h
    by_cases hp : MINING_DATA_LENGTH ≤ score >>> 6
    · rw [if_pos hp] at h
      have hsc : score = s := by
        cases h
        rfl
      rw [Nat.shiftRight_eq_div_pow,
        show (2 : ℕ) ^ 6 = 64 from by norm_num] at hp
      simp only [MINING_DATA_LENGTH] at hp
      omega
    · rw [if_neg hp] at h
      have hlt : score < 65536 := by
        rw [Nat.shiftRight_eq_div_pow,
          show (2 : ℕ) ^ 6 = 64 from by norm_num] at hp
        simp only [MINING_DATA_LENGTH] at hp
        omega
      split at h
      · split at h
        · exact absurd h (by simp)
        · exact ih _ _ _ _ (by omega) h
      · split at h
        · split at h
          · exact absurd h (by simp)
          · exact ih _ _ _ _ (by omega) h
        · split at h
          · exact absurd h (by simp)
          · exact ih _ _ _ _ (by omega) h

/-- Concrete check of `scoring_oob_only_at_bound`: the crafted
configuration panics, and the theorem pins its score to 65536. -/
theorem scoring_oob_only_at_bound_check :
    scoringLoop onesTape links7 65537 (fun _ => 255) 1024 0 =
        .oob 65536 ∧
      (65536 : ℕ) = 65536 := by
  have hrun : scoringLoop onesTape links7 65537 (fun _ => 255) 1024 0 =
      .oob 65536 :=
    scoringLoop_links7_oob links7 (fun i _ => rfl) 65537 0 1024 _
      (by omega) (by omega)
  exact ⟨hrun,
    scoring_oob_only_at_bound onesTape links7 65537 0 1024 (fun _ => 255)
      65536 (by omega) hrun⟩

/-! # Claim C1: the neuron values are not re-initialised

Under `links1`, the classification of the very first scoring round
depends on the neuron values `find_solution` starts from, and the final
score differs between a fresh `NeuronData::new()` state (all `0xFF`) and
the zero-initialised `NeuronData::default()` state that `Miner::run`
actually allocates. -/

/-- A mining tape whose word 0 is `1` (bit 0 set, all other bits 0). -/
def tape01 : ℕ → ℕ := fun w => if w = 0 then 1 else 0

def t1state : ℕ → ℕ := fun j => if j = 0 then 0 else 255

def t2state : ℕ → ℕ :=
  fun j => if j < 4194304 then (if j = 0 then 255 else 0) else 255

def u1state : ℕ → ℕ :=
  fun j => if j < 4194304 then (if j = 0 ∨ j % 25 = 3 then 255 else 0)
    else 0

def u2state : ℕ → ℕ :=
  fun j => if j < 4194304 then (if j = 0 then 0 else 255) else 0

def u3state : ℕ → ℕ := fun j => if j = 0 then 255 else 0

lemma round1_c255 : roundImage1 (fun _ => 255) = t1state := by
  funext j
  simp only [roundImage1, image1core, t1state, NUMBER_OF_NEURONS]
  split_ifs <;> first | rfl | omega | decide | simp_all

lemma round1_t1 : roundImage1 t1state = t2state := by
  funext j
  simp only [roundImage1, image1core, t1state, t2state, NUMBER_OF_NEURONS]
  split_ifs <;> first | rfl | omega | decide | simp_all

lemma round1_t2 : roundImage1 t2state = t1state := by
  funext j
  simp only [roundImage1, image1core, t1state, t2state, NUMBER_OF_NEURONS]
  split_ifs <;> first | rfl | omega | decide | simp_all

lemma round1_c0 : roundImage1 (fun _ => 0) = u1state := by
  funext j
  simp only [roundImage1, image1core, u1state, NUMBER_OF_NEURONS]
  split_ifs <;> first | rfl | omega | decide | simp_all

lemma round1_u1 : roundImage1 u1state = u2state := by
  funext j
  simp only [roundImage1, image1core, u1state, u2state, NUMBER_OF_NEURONS]
  split_ifs <;> first | rfl | omega | decide | simp_all

lemma round1_u2 : roundImage1 u2state = u3state := by
  funext j
  simp only [roundImage1, image1core, u2state, u3state, NUMBER_OF_NEURONS]
  split_ifs <;> first | rfl | omega | decide | simp_all

lemma round1_u3 : roundImage1 u3state = u2state := by
  funext j
  simp only [roundImage1, image1core, u2state, u3state, NUMBER_OF_NEURONS]
  split_ifs <;> first | rfl | omega | decide | simp_all

/-- One unfolding of the scoring loop (stated for explicit rewriting at
numeric fuel values). -/
lemma scoringLoop_step (md links : ℕ → ℕ) (f : ℕ) (v : ℕ → ℕ)
    (remaining score : ℕ) :
    scoringLoop md links (f + 1) v remaining score =
      if MINING_DATA_LENGTH ≤ score >>> 6 then .oob score
      else
        if neuronPairLoop links v NUMBER_OF_NEURONS_64
              (NUMBER_OF_NEURONS - 1) ≠ v (NUMBER_OF_NEURONS - 1) ∧
            neuronPairLoop links v NUMBER_OF_NEURONS_64
              (NUMBER_OF_NEURONS - 2) = v (NUMBER_OF_NEURONS - 2) then
          if (md (score >>> 6) >>> (score &&& 63)) &&& 1 = 0 then
            .done score
          else
            scoringLoop md links f
              (neuronPairLoop links v NUMBER_OF_NEURONS_64) remaining
              (score + 1)
        else if neuronPairLoop links v NUMBER_OF_NEURONS_64
              (NUMBER_OF_NEURONS - 2) ≠ v (NUMBER_OF_NEURONS - 2) ∧
            neuronPairLoop links v NUMBER_OF_NEURONS_64
              (NUMBER_OF_NEURONS - 1) = v (NUMBER_OF_NEURONS - 1) then
          if (md (score >>> 6) >>> (score &&& 63)) &&& 1 = 1 then
            .done score
          else
            scoringLoop md links f
              (neuronPairLoop links v NUMBER_OF_NEURONS_64) remaining
              (score + 1)
        else if remaining - 1 = 0 then .done score
        else
          scoringLoop md links f
            (neuronPairLoop links v NUMBER_OF_NEURONS_64) (remaining - 1)
            score := rfl

/-- If the last two neurons classify as "neither or both changed" in both
directions of a two-state round cycle, the loop burns down `remaining`
and exits with the current score. -/
lemma scoringLoop_else_cycle (md L : ℕ → ℕ) (a b : ℕ → ℕ)
    (hra : neuronPairLoop L a NUMBER_OF_NEURONS_64 = b)
    (hrb : neuronPairLoop L b NUMBER_OF_NEURONS_64 = a)
    (hc1a : ¬(b 4194303 ≠ a 4194303 ∧ b 4194302 = a 4194302))
    (hc2a : ¬(b 4194302 ≠ a 4194302 ∧ b 4194303 = a 4194303))
    (hc1b : ¬(a 4194303 ≠ b 4194303 ∧ a 4194302 = b 4194302))
    (hc2b : ¬(a 4194302 ≠ b 4194302 ∧ a 4194303 = b 4194303)) :
    ∀ (rem : ℕ), 1 ≤ rem → ∀ (fuel score : ℕ), rem ≤ fuel →
      score < 65536 →
      scoringLoop md L fuel a rem score = .done score ∧
      scoringLoop md L fuel b rem score = .done score := by
  intro rem
  induction rem with
  | zero => omega
  | succ r ih =>
    intro _ fuel score hf hs
    obtain ⟨f, rfl⟩ : ∃ f, fuel = f + 1 := ⟨fuel - 1, by omega⟩
    have hpan : ¬ (MINING_DATA_LENGTH ≤ score >>> 6) := by
      rw [Nat.shiftRight_eq_div_pow,
        show (2 : ℕ) ^ 6 = 64 from by norm_num]
      simp only [MINING_DATA_LENGTH]
      omega
    constructor
    · simp only [scoringLoop, nSub1, nSub2]
      rw [hra, if_neg hpan, if_neg hc1a, if_neg hc2a]
      by_cases hr : r = 0
      · subst hr
        rw [if_pos (by norm_num)]
      · rw [if_neg (by omega : ¬ (r + 1 - 1 = 0)),
          show r + 1 - 1 = r from rfl]
        exact (ih (by omega) f score (by omega) hs).2
    · simp only [scoringLoop, nSub1, nSub2]
      rw [hrb, if_neg hpan, if_neg hc1b, if_neg hc2b]
      by_cases hr : r = 0
      · subst hr
        rw [if_pos (by norm_num)]
      · rw [if_neg (by omega : ¬ (r + 1 - 1 = 0)),
          show r + 1 - 1 = r from rfl]
        exact (ih (by omega) f score (by omega) hs).1

/-- From all-`0xFF` values (`NeuronData::new`), round 1 changes neither
of the last two neurons, and the loop then cycles through else-rounds to
final score 0. -/
lemma scoringLoop_links1_new (L : ℕ → ℕ)
    (hL : ∀ i, i < NUMBER_OF_NEURONS → L i = links1 i) :
    scoringLoop tape01 L 2000 (fun _ => 255) 1024 0 = .done 0 := by
  rw [show (2000 : ℕ) = 1999 + 1 from by norm_num, scoringLoop_step]
  simp only [nSub1, nSub2]
  rw [neuronPairLoop_links1 L hL, round1_c255]
  rw [if_neg (by decide : ¬ (MINING_DATA_LENGTH ≤ 0 >>> 6))]
  rw [if_neg (by decide), if_neg (by decide)]
  rw [if_neg (by norm_num : ¬ ((1024 : ℕ) - 1 = 0)),
    show (1024 : ℕ) - 1 = 1023 from by norm_num]
  exact (scoringLoop_else_cycle tape01 L t1state t2state
    (by rw [neuronPairLoop_links1 L hL]; exact round1_t1)
    (by rw [neuronPairLoop_links1 L hL]; exact round1_t2)
    (by decide) (by decide) (by decide) (by decide)
    1023 (by omega) 1999 0 (by omega) (by omega)).1

/-- From all-zero values (`NeuronData::default`, as `Miner::run`
allocates), round 1 is an A-event with bit 1, round 2 a B-event with bit
0, and the loop then cycles through else-rounds to final score 2. -/
lemma scoringLoop_links1_zeroed (L : ℕ → ℕ)
    (hL : ∀ i, i < NUMBER_OF_NEURONS → L i = links1 i) :
    scoringLoop tape01 L 2000 (fun _ => 0) 1024 0 = .done 2 := by
  rw [show (2000 : ℕ) = 1999 + 1 from by norm_num, scoringLoop_step]
  simp only [nSub1, nSub2]
  rw [neuronPairLoop_links1 L hL, round1_c0]
  rw [if_neg (by decide : ¬ (MINING_DATA_LENGTH ≤ 0 >>> 6))]
  rw [if_pos (by decide :
    u1state 4194303 ≠ (fun _ => (0 : ℕ)) 4194303 ∧
      u1state 4194302 = (fun _ => (0 : ℕ)) 4194302)]
  rw [show (tape01 (0 >>> 6) >>> (0 &&& 63)) &&& 1 = 1 from by decide]
  rw [if_neg (by norm_num : ¬ (1 : ℕ) = 0)]
  rw [show (1999 : ℕ) = 1998 + 1 from by norm_num, scoringLoop_step]
  simp only [nSub1, nSub2]
  rw [neuronPairLoop_links1 L hL, round1_u1]
  rw [if_neg (by decide : ¬ (MINING_DATA_LENGTH ≤ 1 >>> 6))]
  rw [if_neg (by decide), if_pos (by decide :
    u2state 4194302 ≠ u1state 4194302 ∧ u2state 4194303 = u1state 4194303)]
  rw [show (tape01 (1 >>> 6) >>> (1 &&& 63)) &&& 1 = 0 from by decide]
  rw [if_neg (by norm_num : ¬ (0 : ℕ) = 1)]
  rw [show (1998 : ℕ) = 1997 + 1 from by norm_num, scoringLoop_step]
  simp only [nSub1, nSub2]
  rw [neuronPairLoop_links1 L hL, round1_u2]
  rw [if_neg (by decide : ¬ (MINING_DATA_LENGTH ≤ 2 >>> 6))]
  rw [if_neg (by decide), if_neg (by decide)]
  rw [if_neg (by norm_num : ¬ ((1024 : ℕ) - 1 = 0)),
    show (1024 : ℕ) - 1 = 1023 from by norm_num]
  exact (scoringLoop_else_cycle tape01 L u3state u2state
    (by rw [neuronPairLoop_links1 L hL]; exact round1_u3)
    (by rw [neuronPairLoop_links1 L hL]; exact round1_u2)
    (by decide) (by decide) (by decide) (by decide)
    1023 (by omega) 1997 2 (by omega) (by omega)).1

/-- Claim C1: with identical permutation backend, public key, nonce,
mining tape and threshold, `find_solution` returns DIFFERENT booleans for
a worker whose `NeuronData` is freshly `new()` (all values `0xFF`) and
for one holding `default()` values (all zero, as `Miner::run` creates):
the scoring loop runs on whatever neuron values come in — `find_solution`
never re-initialises them — so the result depends on residual neuron
state, refuting the claim. -/
theorem find_solution_uses_stale_neuron_values :
    find_solution_bool (fun _ => S1) [0, 0, 0, 0] [0, 0, 0, 0] tape01 1
        2000 NeuronData.new = some false ∧
      find_solution_bool (fun _ => S1) [0, 0, 0, 0] [0, 0, 0, 0] tape01 1
        2000 NeuronData.zeroed = some true := by
  have hL : ∀ i, i < NUMBER_OF_NEURONS →
      derivedLinks (fun _ => S1) [0, 0, 0, 0] [0, 0, 0, 0] i = links1 i :=
    fun i hi => derivedLinks_S1 [0, 0, 0, 0] [0, 0, 0, 0] i hi
  constructor
  · rw [find_solution_bool, find_solution,
      show NeuronData.new.neuron_values = (fun _ => (255 : ℕ)) from rfl,
      show MINING_DATA_LENGTH = 1024 from rfl,
      scoringLoop_links1_new _ hL]
    rfl
  · rw [find_solution_bool, find_solution,
      show NeuronData.zeroed.neuron_values = (fun _ => (0 : ℕ)) from rfl,
      show MINING_DATA_LENGTH = 1024 from rfl,
      scoringLoop_links1_zeroed _ hL]
    rfl

end Qiner
